import Mathlib

set_option maxHeartbeats 1000000
set_option maxRecDepth 8000

/-!
Verification of the deterministic cooperative task-scheduler design
(`spec.md`) for the javascript-knowledge-base repository.  The repository
source contains only the event-loop walkthrough commentary and demos; the
Loop Driver itself is not present under `src/`, so the scheduler below is
modelled from the spec.  The Express health endpoint at the end is embedded
from `src/backend/project1/src/app.ts`.
-/

namespace EvLoop

/-- Modelled from the spec: Task `kind` ∈ {Priority, Microtask, Timer, Poll,
Check} (spec §3). -/
inductive Kind where
  | priority
  | microtask
  | timer
  | poll
  | check
deriving DecidableEq, Repr, Inhabited

/-- Modelled from the spec: a Task `payload` is "a callable closure over
caller state" (spec §3) invoked uniformly by the Loop Driver.  The payload is
embedded as a finite list of effectful commands: emitting a harness log line,
issuing one of the five public scheduling calls (spec §6), cancelling a
handle, or raising (Task failure, spec §7a).  `schedTimer` carries an `Int`
delay so that the misuse case of spec §7c (negative delay) is expressible. -/
inductive Cmd where
  | log (s : String)
  | schedPriority (name : String) (body : List Cmd)
  | schedMicrotask (name : String) (body : List Cmd)
  | schedTimer (name : String) (body : List Cmd) (delay : Int)
  | schedIo (name : String) (body : List Cmd)
  | schedCheck (name : String) (body : List Cmd)
  | cancelTask (h : Nat)
  | fail
deriving Inhabited

/-- Modelled from the spec: immutable Task record (spec §3): `id` (opaque
handle), `kind`, `name` (the identifier the harness sees in the execution
log), `body` (payload), `sequence` (globally monotonic counter assigned at
scheduling time), `deadline` (logical tick, meaningful only for Timer kind).
The `cancelled` flag is represented as a tombstone set on the scheduler state
(spec §3 allows lazy tombstoning as long as the drain logic skips it). -/
structure Task where
  id : Nat
  kind : Kind
  name : String
  body : List Cmd
  sequence : Nat
  deadline : Nat
deriving Inhabited

/-- Modelled from the spec: one entry of the `ExecutionLog` (spec §6): either
a harness log line emitted by a payload / the synchronous block, or the
identifier of an executed Task (recorded by the Loop Driver together with the
task's id and kind). -/
inductive Entry where
  | msg (s : String)
  | task (id : Nat) (kind : Kind) (name : String)
deriving DecidableEq, Repr, Inhabited

/-- Modelled from the spec: `currentPhase` values of the Loop State
(spec §3). -/
inductive Phase where
  | idle
  | runningSync
  | drainingPriority
  | drainingMicrotask
  | timersPhase
  | pollPhase
  | checkPhase
  | closed
deriving DecidableEq, Repr, Inhabited

/-- Modelled from the spec: the owned state of one Loop Driver instance
(spec §3, §9): the five Task containers (FIFO priority, microtask, poll and
check queues plus the timer min-heap kept as a list sorted by
`(deadline, sequence)`), the monotonic `nextSeq` counter, tombstone and
started handle sets, the logical `tick`, the execution log, and the Error
Sink (a list of `(id, kind)` failure reports, spec §7a). -/
structure SchedState where
  nextSeq : Nat
  prQ : List Task
  mtQ : List Task
  heap : List Task
  pollQ : List Task
  checkQ : List Task
  cancelled : List Nat
  started : List Nat
  tick : Nat
  log : List Entry
  errors : List (Nat × Kind)
  phase : Phase
deriving Inhabited

/-- Modelled from the spec: ordered insertion into the timer min-heap keyed
by `(deadline, sequence)` ascending (spec §3, §4.4). -/
def heapInsert (t : Task) : List Task → List Task
  | [] => [t]
  | u :: rest =>
    if t.deadline < u.deadline ∨ (t.deadline = u.deadline ∧ t.sequence < u.sequence) then
      t :: u :: rest
    else
      u :: heapInsert t rest

/-- Modelled from the spec: create a Task (assigning `id = sequence = nextSeq`
and bumping the counter) and store it in the container selected by its kind
(spec §3 lifecycle, §4.2–§4.5).  Returns the new state and the handle. -/
def enqueue (st : SchedState) (k : Kind) (name : String) (body : List Cmd)
    (deadline : Nat) : SchedState × Nat :=
  let t : Task := ⟨st.nextSeq, k, name, body, st.nextSeq, deadline⟩
  let st' :=
    match k with
    | .priority => {st with prQ := st.prQ ++ [t]}
    | .microtask => {st with mtQ := st.mtQ ++ [t]}
    | .timer => {st with heap := heapInsert t st.heap}
    | .poll => {st with pollQ := st.pollQ ++ [t]}
    | .check => {st with checkQ := st.checkQ ++ [t]}
  ({st' with nextSeq := st.nextSeq + 1}, st.nextSeq)

/-- Modelled from the spec: `schedulePriority(payload) -> Handle` (spec §6). -/
def schedulePriority (st : SchedState) (name : String) (body : List Cmd) :
    SchedState × Nat :=
  enqueue st .priority name body 0

/-- Modelled from the spec: `scheduleMicrotask(payload) -> Handle` (spec §6). -/
def scheduleMicrotask (st : SchedState) (name : String) (body : List Cmd) :
    SchedState × Nat :=
  enqueue st .microtask name body 0

/-- Modelled from the spec: `scheduleTimer(payload, delay) -> Handle`
computes `deadline = tick + delay` at schedule time (spec §4.4); a negative
`delay` is programmer misuse, rejected at the scheduling call with a
descriptive error and no Task created (spec §7c). -/
def scheduleTimer (st : SchedState) (name : String) (body : List Cmd)
    (delay : Int) : Except String (SchedState × Nat) :=
  if delay < 0 then .error "scheduleTimer: negative delay"
  else .ok (enqueue st .timer name body (st.tick + delay.toNat))

/-- Modelled from the spec: `scheduleIO(payload) -> Handle` enqueues into the
Poll Queue (spec §6; renamed `scheduleIo` here). -/
def scheduleIo (st : SchedState) (name : String) (body : List Cmd) :
    SchedState × Nat :=
  enqueue st .poll name body 0

/-- Modelled from the spec: `scheduleCheck(payload) -> Handle` (spec §6). -/
def scheduleCheck (st : SchedState) (name : String) (body : List Cmd) :
    SchedState × Nat :=
  enqueue st .check name body 0

/-- Modelled from the spec: `currentTick() -> integer` (spec §6). -/
def currentTick (st : SchedState) : Nat := st.tick

/-- Modelled from the spec: `cancel(handle) -> bool` is synchronous and
idempotent; `true` only if the Task had not yet begun executing, `false`
otherwise, including unknown / already-fired / already-consumed handles, and
it never raises (spec §5, §7b).  A successful cancellation tombstones the
handle; physical removal from its container is lazy (spec §3). -/
def cancel (h : Nat) (st : SchedState) : Bool × SchedState :=
  if h < st.nextSeq ∧ h ∉ st.started ∧ h ∉ st.cancelled then
    (true, {st with cancelled := h :: st.cancelled})
  else
    (false, st)

/-- Modelled from the spec: execute one payload command; `Except.error`
signals that the payload raised (spec §7a for `fail`, §7c for a negative
timer delay surfacing at the scheduling call). -/
def execCmd (st : SchedState) : Cmd → Except String SchedState
  | .log s => .ok {st with log := st.log ++ [.msg s]}
  | .schedPriority n b => .ok (schedulePriority st n b).1
  | .schedMicrotask n b => .ok (scheduleMicrotask st n b).1
  | .schedTimer n b d => (scheduleTimer st n b d).map (·.1)
  | .schedIo n b => .ok (scheduleIo st n b).1
  | .schedCheck n b => .ok (scheduleCheck st n b).1
  | .cancelTask h => .ok (cancel h st).2
  | .fail => .error "task payload raised"

/-- Modelled from the spec: run a Task payload to completion at the per-Task
boundary: commands execute in order; a raising command aborts the rest of the
payload and the failure is reported to the Error Sink with the failing Task's
id and kind, without aborting the loop (spec §7a). -/
def runPayload (tid : Nat) (tkind : Kind) (st : SchedState) :
    List Cmd → SchedState
  | [] => st
  | c :: rest =>
    match execCmd st c with
    | .ok st' => runPayload tid tkind st' rest
    | .error _ => {st with errors := st.errors ++ [(tid, tkind)]}

/-- Modelled from the spec: the Stack Executor runs the caller's synchronous
block; scheduling calls made during this block enqueue Tasks but do not
execute them (spec §4.1). -/
def runSync (st : SchedState) : List Cmd → SchedState
  | [] => st
  | c :: rest =>
    match execCmd st c with
    | .ok st' => runSync st' rest
    | .error _ => st

/-- Modelled from the spec: execute one dequeued Task: a tombstoned Task is
skipped without invoking its payload (spec §3); otherwise the Loop Driver
marks it started, appends its identifier to the `ExecutionLog`, and runs its
payload (spec §4.6, §6). -/
def execTask (st : SchedState) (t : Task) : SchedState :=
  if t.id ∈ st.cancelled then st
  else
    runPayload t.id t.kind
      {st with started := t.id :: st.started,
               log := st.log ++ [.task t.id t.kind t.name]} t.body

/-- Modelled from the spec: drain the Priority Queue to exhaustion in strict
FIFO order, including Tasks enqueued by Tasks drained from this same queue
(spec §4.2).  The fuel bounds the intentionally unbounded recursive
self-scheduling (spec §4.6 rationale); `none` means the fuel ran out. -/
def drainPriority : Nat → SchedState → Option SchedState
  | 0, _ => none
  | fuel + 1, st =>
    match st.prQ with
    | [] => some st
    | t :: rest => drainPriority fuel (execTask {st with prQ := rest} t)

/-- Modelled from the spec: drain the Microtask Queue to exhaustion;
exhaustion is transitive — a microtask that schedules another microtask
causes the new one to run within the same drain pass (spec §4.3). -/
def drainMicrotask : Nat → SchedState → Option SchedState
  | 0, _ => none
  | fuel + 1, st =>
    match st.mtQ with
    | [] => some st
    | t :: rest => drainMicrotask fuel (execTask {st with mtQ := rest} t)

/-- Modelled from the spec: drain Priority then Microtask (steps 2–3 of
spec §4.6), performed after the synchronous block and again after every
macrotask-phase callback. -/
def drainPM (fuel : Nat) (st : SchedState) : Option SchedState :=
  (drainPriority fuel st).bind (drainMicrotask fuel)

/-- Modelled from the spec: execute a fixed snapshot of macrotask-phase
Tasks one at a time, draining Priority then Microtask after each callback
(spec §4.6 steps 4a–4c). -/
def runSnapshot (fuel : Nat) : SchedState → List Task → Option SchedState
  | st, [] => some st
  | st, t :: rest =>
    (drainPM fuel (execTask st t)).bind fun st' => runSnapshot fuel st' rest

/-- Modelled from the spec: `TimersPhase` (spec §4.6 step 4a): if the Timer
Heap is non-empty, advance `tick` to the smallest pending deadline, pop all
now-ready timers in `(deadline, sequence)` order, and execute them one at a
time with a Priority/Microtask drain after each. -/
def timersPhase (fuel : Nat) (st : SchedState) : Option SchedState :=
  match st.heap with
  | [] => some st
  | t0 :: _ =>
    let tick' := max st.tick t0.deadline
    let ready := st.heap.takeWhile fun t => t.deadline ≤ tick'
    let rest := st.heap.dropWhile fun t => t.deadline ≤ tick'
    runSnapshot fuel {st with tick := tick', heap := rest} ready

/-- Modelled from the spec: `PollPhase` (spec §4.6 step 4b): execute a
fixed-size snapshot of the Poll Queue taken at phase entry; Tasks enqueued
during the phase are deferred to the next iteration. -/
def pollPhase (fuel : Nat) (st : SchedState) : Option SchedState :=
  runSnapshot fuel {st with pollQ := []} st.pollQ

/-- Modelled from the spec: `CheckPhase` (spec §4.6 step 4c), same snapshot
rule as the Poll Phase. -/
def checkPhase (fuel : Nat) (st : SchedState) : Option SchedState :=
  runSnapshot fuel {st with checkQ := []} st.checkQ

/-- Modelled from the spec: the Loop Driver iteration loop (spec §4.6 steps
4–5): repeat the fixed Timers → Poll → Check phase order while macrotasks are
pending; when every container is empty, transition to `Closed` — the only
terminal state (spec §7).  Leftover Priority/Microtask Tasks (possible only
when a microtask schedules into the priority queue during its drain) are
re-drained before closing, per the step-5 requirement that all queues and the
heap be empty on `Closed`. -/
def loopDriver : Nat → SchedState → Option SchedState
  | 0, _ => none
  | fuel + 1, st =>
    if st.heap.isEmpty && st.pollQ.isEmpty && st.checkQ.isEmpty then
      if st.prQ.isEmpty && st.mtQ.isEmpty then
        some {st with phase := .closed}
      else
        (drainPM (fuel + 1) st).bind (loopDriver fuel)
    else
      (timersPhase (fuel + 1) st).bind fun st1 =>
        (pollPhase (fuel + 1) st1).bind fun st2 =>
          (checkPhase (fuel + 1) st2).bind (loopDriver fuel)

/-- Modelled from the spec: the initial Loop Driver state: empty containers,
`nextSeq = 0`, `tick = 0`, phase `Idle` (spec §3). -/
def initState : SchedState :=
  ⟨0, [], [], [], [], [], [], [], 0, [], [], .idle⟩

/-- Modelled from the spec: `run(syncBlock) -> ExecutionLog` (spec §6):
execute the synchronous block, drain Priority then Microtask to exhaustion,
run the macrotask iteration loop, and return the final state (whose `log` is
the ordered `ExecutionLog`) on `Closed`.  `none` means the fuel bound was hit
(unbounded recursive self-scheduling, spec §4.6 rationale). -/
def run (fuel : Nat) (syncBlock : List Cmd) : Option SchedState :=
  let st1 := runSync {initState with phase := .runningSync} syncBlock
  (drainPM fuel st1).bind (loopDriver fuel)

/-- Modelled from the spec: the identifier a log entry shows to the harness. -/
def entryName : Entry → String
  | .msg s => s
  | .task _ _ n => n

/-- Modelled from the spec: the `ExecutionLog` as the harness reads it. -/
def executionLog (st : SchedState) : List String := st.log.map entryName

/-- Scenario A of spec §8: sync block logs `S`, then schedules Priority `A`,
Microtask `B`, Timer `C` at delay 0 and Timer `D` at delay 0. -/
def scenarioA : List Cmd :=
  [.log "S", .schedPriority "A" [], .schedMicrotask "B" [],
   .schedTimer "C" [] 0, .schedTimer "D" [] 0]

/-! ### List helpers -/

theorem mem_of_mem_takeWhile {α : Type} {p : α → Bool} {a : α} :
    ∀ {l : List α}, a ∈ l.takeWhile p → a ∈ l
  | [], h => by simp [List.takeWhile] at h
  | b :: l, h => by
    by_cases hb : p b
    · rcases (by simpa [List.takeWhile, hb] using h : a = b ∨ a ∈ l.takeWhile p) with h' | h'
      · simp [h']
      · exact List.mem_cons_of_mem b (mem_of_mem_takeWhile h')
    · simp [List.takeWhile, hb] at h

theorem mem_of_mem_dropWhile {α : Type} {p : α → Bool} {a : α} :
    ∀ {l : List α}, a ∈ l.dropWhile p → a ∈ l
  | [], h => by simp [List.dropWhile] at h
  | b :: l, h => by
    by_cases hb : p b
    · exact List.mem_cons_of_mem b (mem_of_mem_dropWhile (by simpa [List.dropWhile, hb] using h))
    · simpa [List.dropWhile, hb] using h

/-! ### Monotonicity of the Loop Driver operations

`Step s t` records what every scheduler operation preserves when moving the
state from `s` to `t`: the log only grows at the end; tombstones are never
removed; a handle newly marked as started was not tombstoned in `s`; and a
Task entry newly appended to the log belongs to a Task that was not
tombstoned in `s`. -/

def Step (s t : SchedState) : Prop :=
  (∃ ws, t.log = s.log ++ ws) ∧
  (∀ i, i ∈ s.cancelled → i ∈ t.cancelled) ∧
  (∀ i, i ∈ t.started → i ∈ s.started ∨ i ∉ s.cancelled) ∧
  (∀ e, e ∈ t.log → e ∈ s.log ∨ ∀ i k n, e = Entry.task i k n → i ∉ s.cancelled)

theorem step_refl (s : SchedState) : Step s s :=
  ⟨⟨[], by simp⟩, fun _ h => h, fun _ h => Or.inl h, fun _ h => Or.inl h⟩

theorem step_trans {s u t : SchedState} (h1 : Step s u) (h2 : Step u t) : Step s t := by
  obtain ⟨⟨w1, hw1⟩, hc1, hs1, hl1⟩ := h1
  obtain ⟨⟨w2, hw2⟩, hc2, hs2, hl2⟩ := h2
  refine ⟨⟨w1 ++ w2, by rw [hw2, hw1, List.append_assoc]⟩,
    fun i hi => hc2 i (hc1 i hi), ?_, ?_⟩
  · intro i hi
    rcases hs2 i hi with h | h
    · exact hs1 i h
    · exact Or.inr fun hc => h (hc1 i hc)
  · intro e he
    rcases hl2 e he with h | h
    · exact hl1 e h
    · exact Or.inr fun i k n heq hc => h i k n heq (hc1 i hc)

theorem step_of_same {s t : SchedState} (hlog : t.log = s.log)
    (hc : t.cancelled = s.cancelled) (hs : t.started = s.started) : Step s t :=
  ⟨⟨[], by simp [hlog]⟩, fun i hi => hc ▸ hi, fun i hi => Or.inl (hs ▸ hi),
    fun e he => Or.inl (hlog ▸ he)⟩

theorem enqueue_fields (st : SchedState) (k : Kind) (n : String) (b : List Cmd)
    (d : Nat) :
    ((enqueue st k n b d).1).log = st.log ∧
    ((enqueue st k n b d).1).cancelled = st.cancelled ∧
    ((enqueue st k n b d).1).started = st.started ∧
    ((enqueue st k n b d).1).errors = st.errors := by
  cases k <;> simp [enqueue]

theorem cancel_fields (h : Nat) (st : SchedState) :
    ((cancel h st).2).log = st.log ∧
    ((cancel h st).2).started = st.started ∧
    ((cancel h st).2).errors = st.errors ∧
    (∀ i, i ∈ st.cancelled → i ∈ ((cancel h st).2).cancelled) := by
  unfold cancel
  split <;> simp +contextual [List.mem_cons_of_mem]

theorem step_execCmd {st st' : SchedState} {c : Cmd} (h : execCmd st c = .ok st') :
    Step st st' := by
  cases c with
  | log s =>
    simp only [execCmd, Except.ok.injEq] at h
    subst h
    refine ⟨⟨[.msg s], rfl⟩, fun i hi => hi, fun i hi => Or.inl hi, ?_⟩
    intro e he
    simp only [List.mem_append, List.mem_singleton] at he
    rcases he with he | he
    · exact Or.inl he
    · exact Or.inr fun i k n heq => by simp [he] at heq
  | schedPriority n b =>
    simp only [execCmd, Except.ok.injEq] at h
    subst h
    obtain ⟨h1, h2, h3, _⟩ := enqueue_fields st .priority n b 0
    exact step_of_same h1 h2 h3
  | schedMicrotask n b =>
    simp only [execCmd, Except.ok.injEq] at h
    subst h
    obtain ⟨h1, h2, h3, _⟩ := enqueue_fields st .microtask n b 0
    exact step_of_same h1 h2 h3
  | schedTimer n b d =>
    simp only [execCmd, scheduleTimer] at h
    split at h
    · simp [Except.map] at h
    · simp only [Except.map, Except.ok.injEq] at h
      subst h
      obtain ⟨h1, h2, h3, _⟩ := enqueue_fields st .timer n b (st.tick + d.toNat)
      exact step_of_same h1 h2 h3
  | schedIo n b =>
    simp only [execCmd, Except.ok.injEq] at h
    subst h
    obtain ⟨h1, h2, h3, _⟩ := enqueue_fields st .poll n b 0
    exact step_of_same h1 h2 h3
  | schedCheck n b =>
    simp only [execCmd, Except.ok.injEq] at h
    subst h
    obtain ⟨h1, h2, h3, _⟩ := enqueue_fields st .check n b 0
    exact step_of_same h1 h2 h3
  | cancelTask h0 =>
    simp only [execCmd, Except.ok.injEq] at h
    subst h
    obtain ⟨h1, h2, _, h4⟩ := cancel_fields h0 st
    exact ⟨⟨[], by simp [h1]⟩, h4, fun i hi => Or.inl (h2 ▸ hi),
      fun e he => Or.inl (h1 ▸ he)⟩
  | fail => simp [execCmd] at h

theorem step_runPayload (tid : Nat) (tkind : Kind) :
    ∀ (cmds : List Cmd) (st : SchedState), Step st (runPayload tid tkind st cmds)
  | [], st => step_refl st
  | c :: rest, st => by
    unfold runPayload
    cases hc : execCmd st c with
    | ok st1 => exact step_trans (step_execCmd hc) (step_runPayload tid tkind rest st1)
    | error e => exact step_of_same rfl rfl rfl

theorem step_execTask (st : SchedState) (t : Task) : Step st (execTask st t) := by
  unfold execTask
  split
  · exact step_refl st
  · rename_i hnc
    have hmid : Step st {st with
        started := t.id :: st.started,
        log := st.log ++ [Entry.task t.id t.kind t.name]} := by
      refine ⟨⟨[Entry.task t.id t.kind t.name], rfl⟩, fun i hi => hi, ?_, ?_⟩
      · intro i hi
        simp only [List.mem_cons] at hi
        rcases hi with hi | hi
        · exact Or.inr (hi ▸ hnc)
        · exact Or.inl hi
      · intro e he
        simp only [List.mem_append, List.mem_singleton] at he
        rcases he with he | he
        · exact Or.inl he
        · refine Or.inr fun i k n heq => ?_
          rw [he] at heq
          obtain ⟨rfl, -, -⟩ := Entry.task.injEq .. |>.mp heq.symm
          exact hnc
    exact step_trans hmid (step_runPayload _ _ _ _)

theorem step_drainPriority :
    ∀ {fuel : Nat} {st st' : SchedState}, drainPriority fuel st = some st' → Step st st'
  | 0, _, _, h => by simp [drainPriority] at h
  | fuel + 1, st, st', h => by
    cases hq : st.prQ with
    | nil =>
      simp only [drainPriority, hq, Option.some.injEq] at h
      exact h ▸ step_refl st
    | cons t rest =>
      simp only [drainPriority, hq] at h
      have h1 : Step st {st with prQ := rest} := step_of_same rfl rfl rfl
      exact step_trans h1 (step_trans (step_execTask _ t) (step_drainPriority h))

theorem step_drainMicrotask :
    ∀ {fuel : Nat} {st st' : SchedState}, drainMicrotask fuel st = some st' → Step st st'
  | 0, _, _, h => by simp [drainMicrotask] at h
  | fuel + 1, st, st', h => by
    cases hq : st.mtQ with
    | nil =>
      simp only [drainMicrotask, hq, Option.some.injEq] at h
      exact h ▸ step_refl st
    | cons t rest =>
      simp only [drainMicrotask, hq] at h
      have h1 : Step st {st with mtQ := rest} := step_of_same rfl rfl rfl
      exact step_trans h1 (step_trans (step_execTask _ t) (step_drainMicrotask h))

theorem step_drainPM {fuel : Nat} {st st' : SchedState} (h : drainPM fuel st = some st') :
    Step st st' := by
  unfold drainPM at h
  obtain ⟨sta, h1, h2⟩ := Option.bind_eq_some.mp h
  exact step_trans (step_drainPriority h1) (step_drainMicrotask h2)

theorem step_runSnapshot {fuel : Nat} :
    ∀ {ts : List Task} {st st' : SchedState}, runSnapshot fuel st ts = some st' → Step st st'
  | [], st, st', h => by
    simp only [runSnapshot, Option.some.injEq] at h
    exact h ▸ step_refl st
  | t :: rest, st, st', h => by
    unfold runSnapshot at h
    obtain ⟨stm, h1, h2⟩ := Option.bind_eq_some.mp h
    exact step_trans (step_execTask st t)
      (step_trans (step_drainPM h1) (step_runSnapshot h2))

theorem step_timersPhase {fuel : Nat} {st st' : SchedState}
    (h : timersPhase fuel st = some st') : Step st st' := by
  cases hq : st.heap with
  | nil =>
    simp only [timersPhase, hq, Option.some.injEq] at h
    exact h ▸ step_refl st
  | cons t0 rest =>
    simp only [timersPhase, hq] at h
    have h1 : Step st {st with
        tick := max st.tick t0.deadline,
        heap := (t0 :: rest).dropWhile fun t =>
          t.deadline ≤ max st.tick t0.deadline} := step_of_same rfl rfl rfl
    exact step_trans h1 (step_runSnapshot h)

theorem step_pollPhase {fuel : Nat} {st st' : SchedState}
    (h : pollPhase fuel st = some st') : Step st st' := by
  unfold pollPhase at h
  have h1 : Step st {st with pollQ := []} := step_of_same rfl rfl rfl
  exact step_trans h1 (step_runSnapshot h)

theorem step_checkPhase {fuel : Nat} {st st' : SchedState}
    (h : checkPhase fuel st = some st') : Step st st' := by
  unfold checkPhase at h
  have h1 : Step st {st with checkQ := []} := step_of_same rfl rfl rfl
  exact step_trans h1 (step_runSnapshot h)

theorem step_loopDriver :
    ∀ {fuel : Nat} {st st' : SchedState}, loopDriver fuel st = some st' → Step st st'
  | 0, _, _, h => by simp [loopDriver] at h
  | fuel + 1, st, st', h => by
    unfold loopDriver at h
    split at h
    · split at h
      · exact (Option.some.injEq .. ▸ h : _ = st') ▸ step_of_same rfl rfl rfl
      · obtain ⟨stm, h1, h2⟩ := Option.bind_eq_some.mp h
        exact step_trans (step_drainPM h1) (step_loopDriver h2)
    · obtain ⟨st1, h1, h'⟩ := Option.bind_eq_some.mp h
      obtain ⟨st2, h2, h''⟩ := Option.bind_eq_some.mp h'
      obtain ⟨st3, h3, h4⟩ := Option.bind_eq_some.mp h''
      exact step_trans (step_timersPhase h1)
        (step_trans (step_pollPhase h2)
          (step_trans (step_checkPhase h3) (step_loopDriver h4)))

theorem step_log_mem {s t : SchedState} (h : Step s t) {e : Entry}
    (he : e ∈ s.log) : e ∈ t.log := by
  obtain ⟨⟨w, hw⟩, -, -, -⟩ := h
  rw [hw]
  exact List.mem_append_left _ he

theorem step_cancelled {s t : SchedState} (h : Step s t) {i : Nat}
    (hi : i ∈ s.cancelled) : i ∈ t.cancelled := h.2.1 i hi

/-! ### Exhaustive draining -/

theorem enqueue_mtQ_mem (st : SchedState) (k : Kind) (n : String) (b : List Cmd)
    (d : Nat) : ∀ u ∈ st.mtQ, u ∈ ((enqueue st k n b d).1).mtQ := by
  intro u hu
  cases k <;> simp only [enqueue, List.mem_append, List.mem_singleton] <;>
    first
      | exact hu
      | exact Or.inl hu

theorem cancel_mtQ (h : Nat) (st : SchedState) : ((cancel h st).2).mtQ = st.mtQ := by
  unfold cancel
  split <;> simp

theorem mtQ_execCmd {st st' : SchedState} {c : Cmd} (h : execCmd st c = .ok st') :
    ∀ u ∈ st.mtQ, u ∈ st'.mtQ := by
  cases c with
  | log s =>
    simp only [execCmd, Except.ok.injEq] at h
    subst h
    exact fun u hu => hu
  | schedPriority n b =>
    simp only [execCmd, Except.ok.injEq] at h
    exact h ▸ enqueue_mtQ_mem st .priority n b 0
  | schedMicrotask n b =>
    simp only [execCmd, Except.ok.injEq] at h
    exact h ▸ enqueue_mtQ_mem st .microtask n b 0
  | schedTimer n b d =>
    simp only [execCmd, scheduleTimer] at h
    split at h
    · simp [Except.map] at h
    · simp only [Except.map, Except.ok.injEq] at h
      exact h ▸ enqueue_mtQ_mem st .timer n b (st.tick + d.toNat)
  | schedIo n b =>
    simp only [execCmd, Except.ok.injEq] at h
    exact h ▸ enqueue_mtQ_mem st .poll n b 0
  | schedCheck n b =>
    simp only [execCmd, Except.ok.injEq] at h
    exact h ▸ enqueue_mtQ_mem st .check n b 0
  | cancelTask h0 =>
    simp only [execCmd, Except.ok.injEq] at h
    subst h
    exact fun u hu => (cancel_mtQ h0 st).symm ▸ hu
  | fail => simp [execCmd] at h

theorem mtQ_runPayload (tid : Nat) (tkind : Kind) :
    ∀ (cmds : List Cmd) (st : SchedState),
    ∀ u ∈ st.mtQ, u ∈ (runPayload tid tkind st cmds).mtQ
  | [], _ => fun _ hu => hu
  | c :: rest, st => by
    unfold runPayload
    cases hc : execCmd st c with
    | ok st1 =>
      exact fun u hu => mtQ_runPayload tid tkind rest st1 u (mtQ_execCmd hc u hu)
    | error e => exact fun u hu => hu

theorem mtQ_execTask (st : SchedState) (t : Task) :
    ∀ u ∈ st.mtQ, u ∈ (execTask st t).mtQ := by
  unfold execTask
  split
  · exact fun u hu => hu
  · exact fun u hu => mtQ_runPayload _ _ _ _ u hu

theorem execTask_logs (st : SchedState) (t : Task) (h : t.id ∉ st.cancelled) :
    Entry.task t.id t.kind t.name ∈ (execTask st t).log := by
  unfold execTask
  rw [if_neg h]
  exact step_log_mem (step_runPayload _ _ _ _) (by simp)

theorem drainMicrotask_mtQ :
    ∀ {fuel : Nat} {st st' : SchedState}, drainMicrotask fuel st = some st' →
    st'.mtQ = []
  | 0, _, _, h => by simp [drainMicrotask] at h
  | fuel + 1, st, st', h => by
    cases hq : st.mtQ with
    | nil =>
      simp only [drainMicrotask, hq, Option.some.injEq] at h
      exact h ▸ hq
    | cons t rest =>
      simp only [drainMicrotask, hq] at h
      exact drainMicrotask_mtQ h

theorem drainMicrotask_runs :
    ∀ {fuel : Nat} {st st' : SchedState}, drainMicrotask fuel st = some st' →
    ∀ t ∈ st.mtQ, t.id ∉ st'.cancelled →
    Entry.task t.id t.kind t.name ∈ st'.log
  | 0, _, _, h => by simp [drainMicrotask] at h
  | fuel + 1, st, st', h => by
    cases hq : st.mtQ with
    | nil => simp [hq]
    | cons t0 rest =>
      simp only [drainMicrotask, hq] at h
      intro t ht hc
      rcases List.mem_cons.mp ht with rfl | hmem
      · by_cases h0 : t.id ∈ st.cancelled
        · exact absurd
            (step_cancelled (step_drainMicrotask h)
              (step_cancelled (step_execTask {st with mtQ := rest} t) h0)) hc
        · exact step_log_mem (step_drainMicrotask h)
            (execTask_logs {st with mtQ := rest} t h0)
      · exact drainMicrotask_runs h t
          (mtQ_execTask {st with mtQ := rest} t0 t hmem) hc

theorem runSnapshot_runs {fuel : Nat} :
    ∀ {ts : List Task} {st st' : SchedState}, runSnapshot fuel st ts = some st' →
    ∀ t ∈ ts, t.id ∉ st'.cancelled →
    Entry.task t.id t.kind t.name ∈ st'.log
  | [], _, _, _ => by simp
  | t0 :: rest, st, st', h => by
    unfold runSnapshot at h
    obtain ⟨stm, h1, h2⟩ := Option.bind_eq_some.mp h
    intro t ht hc
    rcases List.mem_cons.mp ht with rfl | hmem
    · by_cases h0 : t.id ∈ st.cancelled
      · exact absurd
          (step_cancelled (step_runSnapshot h2)
            (step_cancelled (step_drainPM h1)
              (step_cancelled (step_execTask st t) h0))) hc
      · exact step_log_mem (step_runSnapshot h2)
          (step_log_mem (step_drainPM h1) (execTask_logs st t h0))
    · exact runSnapshot_runs h2 t hmem hc

theorem checkPhase_runs {fuel : Nat} {st st' : SchedState}
    (h : checkPhase fuel st = some st') :
    ∀ t ∈ st.checkQ, t.id ∉ st'.cancelled →
    Entry.task t.id t.kind t.name ∈ st'.log := by
  unfold checkPhase at h
  exact fun t ht hc => runSnapshot_runs h t ht hc

/-! ### Termination is only via the Closed transition -/

theorem loopDriver_closed :
    ∀ {fuel : Nat} {st st' : SchedState}, loopDriver fuel st = some st' →
    st'.phase = .closed ∧ st'.prQ = [] ∧ st'.mtQ = [] ∧ st'.heap = [] ∧
    st'.pollQ = [] ∧ st'.checkQ = []
  | 0, _, _, h => by simp [loopDriver] at h
  | fuel + 1, st, st', h => by
    unfold loopDriver at h
    split at h
    · rename_i hmac
      split at h
      · rename_i hpm
        simp only [Option.some.injEq] at h
        subst h
        simp only [Bool.and_eq_true, List.isEmpty_iff] at hmac hpm
        obtain ⟨⟨hh, hp⟩, hck⟩ := hmac
        obtain ⟨hpr, hmt⟩ := hpm
        exact ⟨rfl, hpr, hmt, hh, hp, hck⟩
      · obtain ⟨stm, h1, h2⟩ := Option.bind_eq_some.mp h
        exact loopDriver_closed h2
    · obtain ⟨st1, h1, h'⟩ := Option.bind_eq_some.mp h
      obtain ⟨st2, h2, h''⟩ := Option.bind_eq_some.mp h'
      obtain ⟨st3, h3, h4⟩ := Option.bind_eq_some.mp h''
      exact loopDriver_closed h4

/-! ### Draining an empty queue is the identity -/

theorem drainPriority_nil {fuel : Nat} {st st' : SchedState} (hq : st.prQ = [])
    (h : drainPriority fuel st = some st') : st' = st := by
  cases fuel with
  | zero => simp [drainPriority] at h
  | succ fuel =>
    simp only [drainPriority, hq, Option.some.injEq] at h
    exact h.symm

theorem drainMicrotask_nil {fuel : Nat} {st st' : SchedState} (hq : st.mtQ = [])
    (h : drainMicrotask fuel st = some st') : st' = st := by
  cases fuel with
  | zero => simp [drainMicrotask] at h
  | succ fuel =>
    simp only [drainMicrotask, hq, Option.some.injEq] at h
    exact h.symm

theorem drainPM_nil {fuel : Nat} {st st' : SchedState}
    (h : drainPM fuel st = some st') (hp : st.prQ = []) (hm : st.mtQ = []) :
    st' = st := by
  unfold drainPM at h
  obtain ⟨sta, h1, h2⟩ := Option.bind_eq_some.mp h
  have ha : sta = st := drainPriority_nil hp h1
  subst ha
  exact drainMicrotask_nil hm h2

/-! ### Runs whose scheduled Tasks carry empty payloads -/

theorem loopDriver_empty {fuel : Nat} {st st' : SchedState}
    (h : loopDriver fuel st = some st') (h1 : st.prQ = []) (h2 : st.mtQ = [])
    (h3 : st.heap = []) (h4 : st.pollQ = []) (h5 : st.checkQ = []) :
    st' = {st with phase := .closed} := by
  obtain ⟨ns, pr, mt, hp, po, ck, ca, sa, ti, lo, er, ph⟩ := st
  simp only at h1 h2 h3 h4 h5
  subst h1 h2 h3 h4 h5
  cases fuel with
  | zero => simp [loopDriver] at h
  | succ fuel =>
    simp only [loopDriver, List.isEmpty_nil, Bool.and_self, if_true,
      Option.some.injEq] at h
    exact h.symm

theorem execTask_pure (st : SchedState) (t : Task) (hb : t.body = [])
    (hc : t.id ∉ st.cancelled) :
    execTask st t = {st with
      started := t.id :: st.started,
      log := st.log ++ [Entry.task t.id t.kind t.name]} := by
  unfold execTask
  rw [if_neg hc, hb]
  rfl

theorem drainPriority_pure :
    ∀ {fuel : Nat} {st st' : SchedState}, drainPriority fuel st = some st' →
    (∀ t ∈ st.prQ, t.body = [] ∧ t.kind = .priority) → st.cancelled = [] →
    st'.mtQ = st.mtQ ∧ st'.heap = st.heap ∧ st'.pollQ = st.pollQ ∧
    st'.checkQ = st.checkQ ∧ st'.cancelled = [] ∧ st'.prQ = [] ∧
    ∃ ws, st'.log = st.log ++ ws ∧ ∀ e ∈ ws, ∃ i n, e = Entry.task i .priority n
  | 0, _, _, h => by simp [drainPriority] at h
  | fuel + 1, st, st', h => by
    cases hq : st.prQ with
    | nil =>
      simp only [drainPriority, hq, Option.some.injEq] at h
      subst h
      intro _ hc
      exact ⟨rfl, rfl, rfl, rfl, hc, hq, [], by simp, by simp⟩
    | cons t0 rest =>
      simp only [drainPriority, hq] at h
      intro hpure hc
      have ht0 := hpure t0 (List.mem_cons_self _ _)
      have hexec : execTask {st with prQ := rest} t0 = {st with
          prQ := rest,
          started := t0.id :: st.started,
          log := st.log ++ [Entry.task t0.id .priority t0.name]} := by
        rw [execTask_pure _ _ ht0.1 (by simp [hc]), ht0.2]
      rw [hexec] at h
      obtain ⟨hm, hh, hp, hk, hcc, hpr, ws, hlog, hws⟩ :=
        drainPriority_pure h (fun t htm => hpure t (List.mem_cons_of_mem _ htm)) hc
      refine ⟨hm, hh, hp, hk, hcc, hpr,
        Entry.task t0.id .priority t0.name :: ws, ?_, ?_⟩
      · rw [hlog]
        simp
      · intro e he
        rcases List.mem_cons.mp he with rfl | he
        · exact ⟨t0.id, t0.name, rfl⟩
        · exact hws e he

theorem drainMicrotask_pure :
    ∀ {fuel : Nat} {st st' : SchedState}, drainMicrotask fuel st = some st' →
    (∀ t ∈ st.mtQ, t.body = [] ∧ t.kind = .microtask) → st.cancelled = [] →
    st'.prQ = st.prQ ∧ st'.heap = st.heap ∧ st'.pollQ = st.pollQ ∧
    st'.checkQ = st.checkQ ∧ st'.cancelled = [] ∧ st'.mtQ = [] ∧
    ∃ ws, st'.log = st.log ++ ws ∧ ∀ e ∈ ws, ∃ i n, e = Entry.task i .microtask n
  | 0, _, _, h => by simp [drainMicrotask] at h
  | fuel + 1, st, st', h => by
    cases hq : st.mtQ with
    | nil =>
      simp only [drainMicrotask, hq, Option.some.injEq] at h
      subst h
      intro _ hc
      exact ⟨rfl, rfl, rfl, rfl, hc, hq, [], by simp, by simp⟩
    | cons t0 rest =>
      simp only [drainMicrotask, hq] at h
      intro hpure hc
      have ht0 := hpure t0 (List.mem_cons_self _ _)
      have hexec : execTask {st with mtQ := rest} t0 = {st with
          mtQ := rest,
          started := t0.id :: st.started,
          log := st.log ++ [Entry.task t0.id .microtask t0.name]} := by
        rw [execTask_pure _ _ ht0.1 (by simp [hc]), ht0.2]
      rw [hexec] at h
      obtain ⟨hm, hh, hp, hk, hcc, hmt, ws, hlog, hws⟩ :=
        drainMicrotask_pure h (fun t htm => hpure t (List.mem_cons_of_mem _ htm)) hc
      refine ⟨hm, hh, hp, hk, hcc, hmt,
        Entry.task t0.id .microtask t0.name :: ws, ?_, ?_⟩
      · rw [hlog]
        simp
      · intro e he
        rcases List.mem_cons.mp he with rfl | he
        · exact ⟨t0.id, t0.name, rfl⟩
        · exact hws e he

/-! ### Claim C1: interleavings of schedulePriority and scheduleMicrotask -/

/-- An arbitrary interleaving of `schedulePriority` and `scheduleMicrotask`
calls issued during the synchronous block: `true` selects Priority. -/
def mkOps (ops : List (Bool × String)) : List Cmd :=
  ops.map fun p => if p.1 then Cmd.schedPriority p.2 [] else Cmd.schedMicrotask p.2 []

theorem runSync_mkOps :
    ∀ (ops : List (Bool × String)) (st : SchedState),
    (runSync st (mkOps ops)).log = st.log ∧
    (runSync st (mkOps ops)).heap = st.heap ∧
    (runSync st (mkOps ops)).pollQ = st.pollQ ∧
    (runSync st (mkOps ops)).checkQ = st.checkQ ∧
    (runSync st (mkOps ops)).cancelled = st.cancelled ∧
    (∀ t ∈ (runSync st (mkOps ops)).prQ,
      t ∈ st.prQ ∨ (t.body = [] ∧ t.kind = .priority)) ∧
    (∀ t ∈ (runSync st (mkOps ops)).mtQ,
      t ∈ st.mtQ ∨ (t.body = [] ∧ t.kind = .microtask))
  | [], st =>
    ⟨rfl, rfl, rfl, rfl, rfl, fun t ht => Or.inl ht, fun t ht => Or.inl ht⟩
  | (b, n) :: ops, st => by
    cases b with
    | true =>
      have hstep : runSync st (mkOps ((true, n) :: ops)) =
          runSync {st with
            prQ := st.prQ ++ [⟨st.nextSeq, .priority, n, [], st.nextSeq, 0⟩],
            nextSeq := st.nextSeq + 1} (mkOps ops) := by
        simp [mkOps, runSync, execCmd, schedulePriority, enqueue]
      rw [hstep]
      obtain ⟨h1, h2, h3, h4, h5, h6, h7⟩ := runSync_mkOps ops {st with
        prQ := st.prQ ++ [⟨st.nextSeq, .priority, n, [], st.nextSeq, 0⟩],
        nextSeq := st.nextSeq + 1}
      refine ⟨h1, h2, h3, h4, h5, ?_, h7⟩
      intro t ht
      rcases h6 t ht with hin | hgood
      · rcases List.mem_append.mp hin with hin | hin
        · exact Or.inl hin
        · rcases List.mem_singleton.mp hin with rfl
          exact Or.inr ⟨rfl, rfl⟩
      · exact Or.inr hgood
    | false =>
      have hstep : runSync st (mkOps ((false, n) :: ops)) =
          runSync {st with
            mtQ := st.mtQ ++ [⟨st.nextSeq, .microtask, n, [], st.nextSeq, 0⟩],
            nextSeq := st.nextSeq + 1} (mkOps ops) := by
        simp [mkOps, runSync, execCmd, scheduleMicrotask, enqueue]
      rw [hstep]
      obtain ⟨h1, h2, h3, h4, h5, h6, h7⟩ := runSync_mkOps ops {st with
        mtQ := st.mtQ ++ [⟨st.nextSeq, .microtask, n, [], st.nextSeq, 0⟩],
        nextSeq := st.nextSeq + 1}
      refine ⟨h1, h2, h3, h4, h5, h6, ?_⟩
      intro t ht
      rcases h7 t ht with hin | hgood
      · rcases List.mem_append.mp hin with hin | hin
        · exact Or.inl hin
        · rcases List.mem_singleton.mp hin with rfl
          exact Or.inr ⟨rfl, rfl⟩
      · exact Or.inr hgood

/-- Recognizer for a Priority Task entry of the `ExecutionLog`. -/
def isPriorityEntry : Entry → Bool
  | .task _ .priority _ => true
  | _ => false

/-- Recognizer for a Microtask Queue Task entry of the `ExecutionLog`. -/
def isMicrotaskEntry : Entry → Bool
  | .task _ .microtask _ => true
  | _ => false

theorem precede_of_split (l A B : List Entry) (p q : Entry → Bool)
    (hl : l = A ++ B) (hA : ∀ e ∈ A, q e = false) (hB : ∀ e ∈ B, p e = false) :
    ∀ i j (hi : i < l.length) (hj : j < l.length),
      p (l.get ⟨i, hi⟩) = true → q (l.get ⟨j, hj⟩) = true → i < j := by
  subst hl
  intro i j hi hj hp hq2
  have hiA : i < A.length := by
    by_contra hge
    push_neg at hge
    have hbound : i - A.length < B.length := by
      simp at hi
      omega
    have hgt : (A ++ B).get ⟨i, hi⟩ = B.get ⟨i - A.length, hbound⟩ :=
      List.getElem_append_right hge
    rw [hgt] at hp
    rw [hB _ (List.get_mem B _ hbound)] at hp
    exact Bool.false_ne_true hp
  have hjB : A.length ≤ j := by
    by_contra hlt
    push_neg at hlt
    have hgt : (A ++ B).get ⟨j, hj⟩ = A[j] := List.getElem_append_left hlt
    rw [hgt] at hq2
    rw [hA _ (List.getElem_mem _)] at hq2
    exact Bool.false_ne_true hq2
  omega

/-- C1 (amended): for every completed run whose synchronous block issues an
arbitrary interleaving of `schedulePriority` and `scheduleMicrotask` calls,
every Priority Queue Task's entry in the returned `ExecutionLog` precedes
every Microtask Queue Task's entry. -/
theorem c1_priority_entries_precede_microtask_entries
    (fuel : Nat) (ops : List (Bool × String)) (st : SchedState)
    (hrun : run fuel (mkOps ops) = some st) :
    ∀ i j (hi : i < st.log.length) (hj : j < st.log.length),
      isPriorityEntry (st.log.get ⟨i, hi⟩) = true →
      isMicrotaskEntry (st.log.get ⟨j, hj⟩) = true → i < j := by
  unfold run at hrun
  obtain ⟨stb, hpm, hld⟩ := Option.bind_eq_some.mp hrun
  unfold drainPM at hpm
  obtain ⟨sta, hdp, hdm⟩ := Option.bind_eq_some.mp hpm
  obtain ⟨f1, f2, f3, f4, f5, f6, f7⟩ :=
    runSync_mkOps ops {initState with phase := .runningSync}
  have hpr : ∀ t ∈ (runSync {initState with phase := .runningSync}
      (mkOps ops)).prQ, t.body = [] ∧ t.kind = .priority := by
    intro t ht
    rcases f6 t ht with hin | h
    · simp [initState] at hin
    · exact h
  have hc1 : (runSync {initState with phase := .runningSync}
      (mkOps ops)).cancelled = [] := by
    rw [f5]
    rfl
  obtain ⟨g1, g2, g3, g4, g5, g6, wsP, hlogP, hwsP⟩ :=
    drainPriority_pure hdp hpr hc1
  have hmt : ∀ t ∈ sta.mtQ, t.body = [] ∧ t.kind = .microtask := by
    intro t ht
    rw [g1] at ht
    rcases f7 t ht with hin | h
    · simp [initState] at hin
    · exact h
  obtain ⟨e1, e2, e3, e4, e5, e6, wsM, hlogM, hwsM⟩ :=
    drainMicrotask_pure hdm hmt g5
  have hb1 : stb.prQ = [] := by rw [e1, g6]
  have hb3 : stb.heap = [] := by rw [e2, g2, f2]; rfl
  have hb4 : stb.pollQ = [] := by rw [e3, g3, f3]; rfl
  have hb5 : stb.checkQ = [] := by rw [e4, g4, f4]; rfl
  have hfinal := loopDriver_empty hld hb1 e6 hb3 hb4 hb5
  have hlog : st.log = wsP ++ wsM := by
    rw [hfinal]
    show stb.log = wsP ++ wsM
    rw [hlogM, hlogP, f1]
    show ([] : List Entry) ++ wsP ++ wsM = wsP ++ wsM
    simp
  refine precede_of_split st.log wsP wsM isPriorityEntry isMicrotaskEntry hlog ?_ ?_
  · intro e he
    obtain ⟨i, n, rfl⟩ := hwsP e he
    rfl
  · intro e he
    obtain ⟨i, n, rfl⟩ := hwsM e he
    rfl

/-- C1 counterexample scenario: the synchronous block schedules only
Microtask `M`, whose payload issues `schedulePriority` for `P` while the
microtask queue is being drained. -/
def cexC1 : List Cmd := [.schedMicrotask "M" [.schedPriority "P" []]]

/-- C1 as stated is false on the model: in this run the `schedulePriority`
call is issued during draining, yet Priority Task `P` occupies log position 1
while Microtask Task `M` occupies position 0, so a Priority entry does not
precede a Microtask entry (causality: the Microtask must run first in order
to issue the scheduling call). -/
theorem c1_counterexample_microtask_schedules_priority :
    (run 16 cexC1).map (fun st => st.log) =
      some [Entry.task 0 .microtask "M", Entry.task 1 .priority "P"] ∧
    isMicrotaskEntry (Entry.task 0 .microtask "M") = true ∧
    isPriorityEntry (Entry.task 1 .priority "P") = true :=
  ⟨by decide, rfl, rfl⟩

/-- C1 witness: the amended theorem applied to the concrete interleaving that
schedules Microtask `m` first and Priority `p` second; the Priority entry
(position 0) still precedes the Microtask entry (position 1). -/
theorem c1_witness :
    run 16 (mkOps [(false, "m"), (true, "p")]) =
      some ((run 16 (mkOps [(false, "m"), (true, "p")])).getD default) ∧
    (0 : Nat) < 1 :=
  ⟨rfl,
    c1_priority_entries_precede_microtask_entries 16 [(false, "m"), (true, "p")]
      ((run 16 (mkOps [(false, "m"), (true, "p")])).getD default) rfl 0 1
      (by decide) (by decide) (by decide) (by decide)⟩

/-- C2: Scenario A of spec §8: the sync block logs `S`, schedules Priority
`A`, Microtask `B`, Timer `C` at delay 0 and Timer `D` at delay 0 (after
`C`); the run returns `ExecutionLog = [S, A, B, C, D]`. -/
theorem c2_scenarioA_log :
    (run 32 scenarioA).map executionLog = some ["S", "A", "B", "C", "D"] := by
  decide

/-! ### Log-extension positioning helpers -/

theorem get_of_extension {L M w : List Entry} (hw : L = M ++ w) {i : Nat}
    (hi : i < M.length) (hiL : i < L.length) : L.get ⟨i, hiL⟩ = M[i] := by
  subst hw
  exact List.getElem_append_left hi

theorem length_of_extension {L M w : List Entry} (hw : L = M ++ w) :
    M.length ≤ L.length := by
  subst hw
  simp

/-- C3: exhaustive transitive microtask draining: any Task present in the
Microtask Queue at any point of a completed drain pass (in particular one
newly scheduled by another microtask mid-drain) and not cancelled has its log
entry strictly before every entry produced after the drain — in particular
before the next macrotask-phase (Timer, Poll or Check) Task's entry appended
by the continuing Loop Driver. -/
theorem c3_microtask_entry_precedes_postdrain_entries
    (fuel1 fuel2 : Nat) (st st' stF : SchedState) (t : Task)
    (hdm : drainMicrotask fuel1 st = some st')
    (ht : t ∈ st.mtQ) (hc : t.id ∉ st'.cancelled)
    (hld : loopDriver fuel2 st' = some stF) :
    ∀ j, st'.log.length ≤ j → j < stF.log.length →
      ∃ i, ∃ (hi : i < stF.log.length), i < j ∧
        stF.log.get ⟨i, hi⟩ = Entry.task t.id t.kind t.name := by
  intro j hge hj
  have hentry : Entry.task t.id t.kind t.name ∈ st'.log :=
    drainMicrotask_runs hdm t ht hc
  obtain ⟨i, hilen, hgeti⟩ := List.getElem_of_mem hentry
  obtain ⟨⟨w, hw⟩, -, -, -⟩ := step_loopDriver hld
  have hiL : i < stF.log.length := lt_of_lt_of_le hilen (length_of_extension hw)
  refine ⟨i, hiL, lt_of_lt_of_le hilen hge, ?_⟩
  rw [get_of_extension hw hilen hiL]
  exact hgeti

/-- C3 witness scenario: Microtask `M` pending together with Timer `T`. -/
def c3St : SchedState := {initState with
  nextSeq := 2,
  mtQ := [⟨0, .microtask, "M", [], 0, 0⟩],
  heap := [⟨1, .timer, "T", [], 1, 0⟩]}

/-- C3 witness scenario: the state after the microtask drain. -/
def c3Mid : SchedState := (drainMicrotask 8 c3St).getD default

/-- C3 witness scenario: the final state of the continuing Loop Driver. -/
def c3Fin : SchedState := (loopDriver 8 c3Mid).getD default

/-- C3 witness: in the concrete scenario the Microtask entry sits strictly
before the Timer entry appended after the drain (position 1). -/
theorem c3_witness :
    ∃ i, ∃ (hi : i < c3Fin.log.length), i < 1 ∧
      c3Fin.log.get ⟨i, hi⟩ = Entry.task 0 .microtask "M" :=
  c3_microtask_entry_precedes_postdrain_entries 8 8 c3St c3Mid c3Fin
    ⟨0, .microtask, "M", [], 0, 0⟩ rfl (List.mem_singleton.mpr rfl)
    (by decide) rfl 1 (by decide) (by decide)

/-- C5: the Check Phase of the current iteration runs before the next Timers
Phase: every Task in the Check Queue at Check-Phase entry (in particular one
scheduled from the Poll Phase callback of the same iteration) and not
cancelled has its log entry strictly before every entry of a Timer Task
executed by the continuing Loop Driver (such as a Timer scheduled at delay 0
from the same Poll callback). -/
theorem c5_check_entry_precedes_later_timer_entry
    (fuelc fuel2 : Nat) (st st' stF : SchedState) (tC : Task) (fid : Nat)
    (fname : String)
    (hcp : checkPhase fuelc st = some st')
    (htC : tC ∈ st.checkQ) (hc : tC.id ∉ st'.cancelled)
    (hld : loopDriver fuel2 st' = some stF)
    (hnotyet : Entry.task fid .timer fname ∉ st'.log) :
    ∀ j (hj : j < stF.log.length),
      stF.log.get ⟨j, hj⟩ = Entry.task fid .timer fname →
      ∃ i, ∃ (hi : i < stF.log.length), i < j ∧
        stF.log.get ⟨i, hi⟩ = Entry.task tC.id tC.kind tC.name := by
  intro j hj hgetj
  have hentry : Entry.task tC.id tC.kind tC.name ∈ st'.log :=
    checkPhase_runs hcp tC htC hc
  obtain ⟨i, hilen, hgeti⟩ := List.getElem_of_mem hentry
  obtain ⟨⟨w, hw⟩, -, -, -⟩ := step_loopDriver hld
  have hjge : st'.log.length ≤ j := by
    by_contra hlt
    push_neg at hlt
    have hmem : Entry.task fid .timer fname ∈ st'.log := by
      rw [← hgetj, get_of_extension hw hlt hj]
      exact List.getElem_mem hlt
    exact hnotyet hmem
  have hiL : i < stF.log.length := lt_of_lt_of_le hilen (length_of_extension hw)
  refine ⟨i, hiL, lt_of_lt_of_le hilen hjge, ?_⟩
  rw [get_of_extension hw hilen hiL]
  exact hgeti

/-- C5 witness scenario: the state at Check-Phase entry after the Poll
callback `P` executed and scheduled Check `E` and the delay-0 Timer `F`. -/
def c5St : SchedState := {initState with
  nextSeq := 3,
  checkQ := [⟨1, .check, "E", [], 1, 0⟩],
  heap := [⟨2, .timer, "F", [], 2, 0⟩],
  started := [0],
  log := [Entry.task 0 .poll "P"]}

/-- C5 witness scenario: the state after the Check Phase. -/
def c5Mid : SchedState := (checkPhase 8 c5St).getD default

/-- C5 witness scenario: the final state of the continuing Loop Driver. -/
def c5Fin : SchedState := (loopDriver 8 c5Mid).getD default

/-- C5 witness: in the concrete scenario Check Task `E` appears strictly
before the delay-0 Timer `F` (which lands at log position 2). -/
theorem c5_witness :
    ∃ i, ∃ (hi : i < c5Fin.log.length), i < 2 ∧
      c5Fin.log.get ⟨i, hi⟩ = Entry.task 1 .check "E" :=
  c5_check_entry_precedes_later_timer_entry 8 8 c5St c5Mid c5Fin
    ⟨1, .check, "E", [], 1, 0⟩ 2 "F" rfl (List.mem_singleton.mpr rfl)
    (by decide) rfl (by decide) 2 (by decide) (by decide)

/-- C6: cancelling a handle with `cancel` returning `true` strictly before
its governing phase is reached guarantees that the Task's payload is never
invoked (the handle never enters the started set) and that its identifier is
absent from the final `ExecutionLog`. -/
theorem c6_cancelled_task_never_runs
    (h : Nat) (st st' stF : SchedState) (fuel : Nat)
    (hcan : cancel h st = (true, st'))
    (hold : ∀ e ∈ st.log, ∀ k n, e ≠ Entry.task h k n)
    (hld : loopDriver fuel st' = some stF) :
    (∀ e ∈ stF.log, ∀ k n, e ≠ Entry.task h k n) ∧ h ∉ stF.started := by
  unfold cancel at hcan
  split at hcan
  case isFalse => simp at hcan
  case isTrue hcond =>
    have hst' : st' = {st with cancelled := h :: st.cancelled} :=
      ((Prod.mk.injEq .. |>.mp hcan).2).symm
    subst hst'
    obtain ⟨⟨w, hw⟩, hcanc, hstart, hlogs⟩ := step_loopDriver hld
    constructor
    · intro e he k n
      rcases hlogs e he with hin | hnew
      · exact hold e hin k n
      · intro heq
        exact hnew h k n heq (List.mem_cons_self _ _)
    · intro hmem
      rcases hstart h hmem with hin | hnotc
      · exact hcond.2.1 hin
      · exact hnotc (List.mem_cons_self _ _)

/-- C6 witness scenario: a single Timer `T` with deadline tick 5, pending. -/
def c6St : SchedState := {initState with
  nextSeq := 1,
  heap := [⟨0, .timer, "T", [], 0, 5⟩]}

/-- C6 witness scenario: the final state after cancelling the Timer before
its deadline tick and letting the Loop Driver run to `Closed`. -/
def c6Fin : SchedState := (loopDriver 8 (cancel 0 c6St).2).getD default

/-- C6 witness: the cancel call on the pending Timer returns `true`, and the
Timer's payload never starts; its identifier is absent from the log. -/
theorem c6_witness :
    cancel 0 c6St = (true, (cancel 0 c6St).2) ∧ 0 ∉ c6Fin.started ∧
    (∀ e ∈ c6Fin.log, ∀ k n, e ≠ Entry.task 0 k n) := by
  have h := c6_cancelled_task_never_runs 0 c6St (cancel 0 c6St).2 c6Fin 8 rfl
    (by intro e he _ _; simp [c6St, initState] at he) rfl
  exact ⟨rfl, h.2, h.1⟩

/-- C7: `cancel` is total (hence never raises) and idempotent: it returns
`true` only if the referenced Task has not yet begun executing, and `false`
for already-started, unknown (never-issued) and already-cancelled handles;
an immediately repeated call returns `false` and leaves the state unchanged. -/
theorem c7_cancel_idempotent_properties (h : Nat) (st : SchedState) :
    ((cancel h st).1 = true → h ∉ st.started) ∧
    (st.nextSeq ≤ h → (cancel h st).1 = false) ∧
    (h ∈ st.started → (cancel h st).1 = false) ∧
    (h ∈ st.cancelled → (cancel h st).1 = false) ∧
    cancel h (cancel h st).2 = (false, (cancel h st).2) := by
  by_cases hcond : h < st.nextSeq ∧ h ∉ st.started ∧ h ∉ st.cancelled
  · have hc : cancel h st = (true, {st with cancelled := h :: st.cancelled}) := by
      unfold cancel
      rw [if_pos hcond]
    rw [hc]
    refine ⟨fun _ => hcond.2.1, fun hle => absurd hcond.1 (by omega),
      fun hs => absurd hs hcond.2.1, fun hcn => absurd hcn hcond.2.2, ?_⟩
    unfold cancel
    rw [if_neg fun hx => hx.2.2 (List.mem_cons_self _ _)]
  · have hc : cancel h st = (false, st) := by
      unfold cancel
      rw [if_neg hcond]
    rw [hc]
    exact ⟨fun htr => absurd htr (by simp), fun _ => rfl, fun _ => rfl,
      fun _ => rfl, hc⟩

/-- C7 witness scenario: handle 0 has already begun executing. -/
def c7St : SchedState := {initState with nextSeq := 1, started := [0]}

/-- C7 witness: `cancel` on the already-started handle returns `false`, on
the unknown handle 5 returns `false`, and repeating a successful cancel in
`c6St` returns `false` without changing the state. -/
theorem c7_witness :
    (cancel 0 c7St).1 = false ∧ (cancel 5 c7St).1 = false ∧
    cancel 0 (cancel 0 c6St).2 = (false, (cancel 0 c6St).2) :=
  ⟨(c7_cancel_idempotent_properties 0 c7St).2.2.1 (by decide),
   (c7_cancel_idempotent_properties 5 c7St).2.1 (by decide),
   (c7_cancel_idempotent_properties 0 c6St).2.2.2.2⟩

/-! ### Claim C8: per-Task failure isolation -/

/-- Modelled from the spec: a payload command that raises when executed
(spec §7a payload failure, §7c negative-delay misuse surfacing inside a
payload). -/
def raising : Cmd → Bool
  | .fail => true
  | .schedTimer _ _ d => decide (d < 0)
  | _ => false

theorem execCmd_errors {st st' : SchedState} {c : Cmd}
    (h : execCmd st c = .ok st') : st'.errors = st.errors := by
  cases c with
  | log s =>
    simp only [execCmd, Except.ok.injEq] at h
    subst h
    rfl
  | schedPriority n b =>
    simp only [execCmd, Except.ok.injEq] at h
    exact h ▸ (enqueue_fields st .priority n b 0).2.2.2
  | schedMicrotask n b =>
    simp only [execCmd, Except.ok.injEq] at h
    exact h ▸ (enqueue_fields st .microtask n b 0).2.2.2
  | schedTimer n b d =>
    simp only [execCmd, scheduleTimer] at h
    split at h
    · simp [Except.map] at h
    · simp only [Except.map, Except.ok.injEq] at h
      exact h ▸ (enqueue_fields st .timer n b (st.tick + d.toNat)).2.2.2
  | schedIo n b =>
    simp only [execCmd, Except.ok.injEq] at h
    exact h ▸ (enqueue_fields st .poll n b 0).2.2.2
  | schedCheck n b =>
    simp only [execCmd, Except.ok.injEq] at h
    exact h ▸ (enqueue_fields st .check n b 0).2.2.2
  | cancelTask h0 =>
    simp only [execCmd, Except.ok.injEq] at h
    exact h ▸ (cancel_fields h0 st).2.2.1
  | fail => simp [execCmd] at h

theorem execCmd_raising (st : SchedState) {c : Cmd} (h : raising c = true) :
    ∃ m, execCmd st c = .error m := by
  cases c with
  | fail => exact ⟨"task payload raised", rfl⟩
  | schedTimer n b d =>
    simp only [raising, decide_eq_true_eq] at h
    refine ⟨"scheduleTimer: negative delay", ?_⟩
    simp [execCmd, scheduleTimer, h, Except.map]
  | log s => simp [raising] at h
  | schedPriority n b => simp [raising] at h
  | schedMicrotask n b => simp [raising] at h
  | schedIo n b => simp [raising] at h
  | schedCheck n b => simp [raising] at h
  | cancelTask h0 => simp [raising] at h

theorem runPayload_raises (tid : Nat) (tkind : Kind) :
    ∀ (cmds : List Cmd) (st : SchedState), (∃ c ∈ cmds, raising c = true) →
    (runPayload tid tkind st cmds).errors = st.errors ++ [(tid, tkind)]
  | [], st => by
    rintro ⟨c, hc, -⟩
    simp at hc
  | c :: rest, st => by
    rintro ⟨c0, hc0, hr⟩
    rcases List.mem_cons.mp hc0 with rfl | hmem
    · obtain ⟨m, hm⟩ := execCmd_raising st hr
      unfold runPayload
      rw [hm]
    · cases hc : execCmd st c with
      | ok st1 =>
        unfold runPayload
        rw [hc]
        rw [runPayload_raises tid tkind rest st1 ⟨c0, hmem, hr⟩, execCmd_errors hc]
      | error m =>
        unfold runPayload
        rw [hc]

/-- C8: per-Task failure isolation: executing an uncancelled Task whose
payload raises reports exactly one failure — carrying the failing Task's id
and kind — to the Error Sink, and the Loop Driver continues: whenever it
afterwards returns, it does so only via the normal `Closed` transition with
every queue and the heap fully drained. -/
theorem c8_task_failure_isolated (st : SchedState) (t : Task)
    (hnc : t.id ∉ st.cancelled) (hr : ∃ c ∈ t.body, raising c = true) :
    (execTask st t).errors = st.errors ++ [(t.id, t.kind)] ∧
    ∀ fuel stF, loopDriver fuel (execTask st t) = some stF →
      stF.phase = .closed ∧ stF.prQ = [] ∧ stF.mtQ = [] ∧ stF.heap = [] ∧
      stF.pollQ = [] ∧ stF.checkQ = [] := by
  constructor
  · unfold execTask
    rw [if_neg hnc]
    exact runPayload_raises t.id t.kind t.body _ hr
  · exact fun fuel stF hld => loopDriver_closed hld

/-- C8 witness scenario: a Timer Task whose payload logs, raises, then would
log again. -/
def c8Task : Task := ⟨0, .timer, "T", [.log "a", .fail, .log "b"], 0, 0⟩

/-- C8 witness scenario: the final state after the failing Task executes and
the Loop Driver continues. -/
def c8Fin : SchedState :=
  (loopDriver 8 (execTask {initState with nextSeq := 1} c8Task)).getD default

/-- C8 witness: the failure is reported as `(0, timer)` and the loop still
terminates via `Closed`. -/
theorem c8_witness :
    (execTask {initState with nextSeq := 1} c8Task).errors =
      ({initState with nextSeq := 1} : SchedState).errors ++ [(0, .timer)] ∧
    c8Fin.phase = .closed := by
  have h := c8_task_failure_isolated {initState with nextSeq := 1} c8Task
    (by decide) ⟨.fail, by simp [c8Task], rfl⟩
  exact ⟨h.1, (h.2 8 c8Fin rfl).1⟩

/-- C9: a `scheduleTimer` call with negative delay is rejected with a
descriptive error and no Task is created: inside a payload the rejected call
leaves every queue, the heap and the sequence counter untouched, the payload
aborts, and only the Error Sink receives a report. -/
theorem c9_negative_delay_rejected (st : SchedState) (n : String) (b : List Cmd)
    (d : Int) (hd : d < 0) :
    scheduleTimer st n b d = .error "scheduleTimer: negative delay" ∧
    ∀ tid tkind rest, runPayload tid tkind st (.schedTimer n b d :: rest) =
      {st with errors := st.errors ++ [(tid, tkind)]} := by
  have hs : scheduleTimer st n b d = .error "scheduleTimer: negative delay" := by
    unfold scheduleTimer
    rw [if_pos hd]
  refine ⟨hs, fun tid tkind rest => ?_⟩
  unfold runPayload
  have hcmd : execCmd st (.schedTimer n b d) =
      .error "scheduleTimer: negative delay" := by
    simp [execCmd, hs, Except.map]
  rw [hcmd]

/-- C9 witness: a concrete negative-delay call is rejected. -/
theorem c9_witness :
    scheduleTimer initState "T" [] (-1) =
      .error "scheduleTimer: negative delay" :=
  (c9_negative_delay_rejected initState "T" [] (-1) (by decide)).1

/-! ### Claim C4: timer heap ordering -/

/-- The `(deadline, sequence)` lexicographic (non-strict) order maintained by
the timer heap. -/
def timerLe (t u : Task) : Prop :=
  t.deadline < u.deadline ∨ (t.deadline = u.deadline ∧ t.sequence ≤ u.sequence)

theorem timerLe_trans {a b c : Task} (h1 : timerLe a b) (h2 : timerLe b c) :
    timerLe a c := by
  unfold timerLe at h1 h2 ⊢
  rcases h1 with h1 | h1 <;> rcases h2 with h2 | h2
  · left; omega
  · left; omega
  · left; omega
  · right; exact ⟨h1.1.trans h2.1, h1.2.trans h2.2⟩

theorem timerLe_of_not_lt {t u : Task}
    (h : ¬(t.deadline < u.deadline ∨
        (t.deadline = u.deadline ∧ t.sequence < u.sequence))) :
    timerLe u t := by
  unfold timerLe
  push_neg at h
  obtain ⟨h1, h2⟩ := h
  rcases Nat.lt_or_ge u.deadline t.deadline with hlt | hge
  · left; exact hlt
  · have heq : t.deadline = u.deadline := by omega
    exact Or.inr ⟨heq.symm, by have := h2 heq; omega⟩

theorem mem_heapInsert {a t : Task} :
    ∀ {l : List Task}, a ∈ heapInsert t l ↔ a = t ∨ a ∈ l
  | [] => by simp [heapInsert]
  | u :: rest => by
    unfold heapInsert
    split
    · simp [List.mem_cons]
    · simp only [List.mem_cons, mem_heapInsert]
      tauto

theorem sorted_heapInsert {t : Task} :
    ∀ {l : List Task}, List.Sorted timerLe l → List.Sorted timerLe (heapInsert t l)
  | [], _ => by simp [heapInsert]
  | u :: rest, hs => by
    rw [List.sorted_cons] at hs
    obtain ⟨hu, hrest⟩ := hs
    unfold heapInsert
    split
    · rename_i hcond
      have htu : timerLe t u := by
        unfold timerLe
        rcases hcond with h | ⟨h1, h2⟩
        · exact Or.inl h
        · exact Or.inr ⟨h1, Nat.le_of_lt h2⟩
      rw [List.sorted_cons]
      refine ⟨?_, ?_⟩
      · intro b hb
        rcases List.mem_cons.mp hb with rfl | hb
        · exact htu
        · exact timerLe_trans htu (hu b hb)
      · rw [List.sorted_cons]
        exact ⟨hu, hrest⟩
    · rename_i hcond
      rw [List.sorted_cons]
      refine ⟨?_, sorted_heapInsert hrest⟩
      intro b hb
      rcases mem_heapInsert.mp hb with rfl | hb
      · exact timerLe_of_not_lt hcond
      · exact hu b hb

/-- Timers scheduled during the synchronous block: each pair is
`(identifier, delay)`. -/
def mkTimers (ds : List (String × Nat)) : List Cmd :=
  ds.map fun p => Cmd.schedTimer p.1 [] (p.2 : Int)

/-- The Task created by the k-th `scheduleTimer` call at logical tick `tk`. -/
def timerTask (tk k : Nat) (p : String × Nat) : Task :=
  ⟨k, .timer, p.1, [], k, tk + p.2⟩

/-- The heap built from a schedule list by successive ordered insertions. -/
def timerFold (tk : Nat) : Nat → List (String × Nat) → List Task → List Task
  | _, [], hp => hp
  | k, p :: rest, hp => timerFold tk (k + 1) rest (heapInsert (timerTask tk k p) hp)

theorem sorted_timerFold (tk : Nat) :
    ∀ (ds : List (String × Nat)) (k : Nat) (hp : List Task),
    List.Sorted timerLe hp → List.Sorted timerLe (timerFold tk k ds hp)
  | [], _, _, h => h
  | _ :: rest, k, _, h => sorted_timerFold tk rest (k + 1) _ (sorted_heapInsert h)

theorem mem_timerFold (tk : Nat) :
    ∀ (ds : List (String × Nat)) (k : Nat) (hp : List Task) (a : Task),
    a ∈ timerFold tk k ds hp →
    a ∈ hp ∨ ∃ i, ∃ (hi : i < ds.length), a = timerTask tk (k + i) (ds.get ⟨i, hi⟩)
  | [], _, _, _, h => Or.inl h
  | p :: rest, k, hp, a, h => by
    rcases mem_timerFold tk rest (k + 1) _ a h with hin | ⟨i, hi, heq⟩
    · rcases mem_heapInsert.mp hin with rfl | hin
      · exact Or.inr ⟨0, by simp, rfl⟩
      · exact Or.inl hin
    · refine Or.inr ⟨i + 1, by simpa using Nat.succ_lt_succ hi, ?_⟩
      rw [heq, show k + 1 + i = k + (i + 1) by omega]
      rfl

theorem runSync_mkTimers :
    ∀ (ds : List (String × Nat)) (st : SchedState),
    (runSync st (mkTimers ds)).heap = timerFold st.tick st.nextSeq ds st.heap ∧
    (runSync st (mkTimers ds)).nextSeq = st.nextSeq + ds.length ∧
    (runSync st (mkTimers ds)).log = st.log ∧
    (runSync st (mkTimers ds)).prQ = st.prQ ∧
    (runSync st (mkTimers ds)).mtQ = st.mtQ ∧
    (runSync st (mkTimers ds)).pollQ = st.pollQ ∧
    (runSync st (mkTimers ds)).checkQ = st.checkQ ∧
    (runSync st (mkTimers ds)).cancelled = st.cancelled ∧
    (runSync st (mkTimers ds)).tick = st.tick
  | [], st => ⟨rfl, rfl, rfl, rfl, rfl, rfl, rfl, rfl, rfl⟩
  | (n, d) :: ds, st => by
    have hstep : runSync st (mkTimers ((n, d) :: ds)) =
        runSync {st with
          heap := heapInsert (timerTask st.tick st.nextSeq (n, d)) st.heap,
          nextSeq := st.nextSeq + 1} (mkTimers ds) := by
      have hnn : ¬((d : Int) < 0) := Int.not_lt.mpr (Int.natCast_nonneg d)
      simp [mkTimers, runSync, execCmd, scheduleTimer, enqueue, timerTask, hnn,
        Except.map]
    rw [hstep]
    obtain ⟨h1, h2, h3, h4, h5, h6, h7, h8, h9⟩ := runSync_mkTimers ds {st with
      heap := heapInsert (timerTask st.tick st.nextSeq (n, d)) st.heap,
      nextSeq := st.nextSeq + 1}
    refine ⟨h1, ?_, h3, h4, h5, h6, h7, h8, h9⟩
    rw [h2]
    simp only [List.length_cons]
    omega

theorem pollPhase_nil {fuel : Nat} {st st' : SchedState} (hq : st.pollQ = [])
    (h : pollPhase fuel st = some st') :
    st'.log = st.log ∧ st'.prQ = st.prQ ∧ st'.mtQ = st.mtQ ∧
    st'.heap = st.heap ∧ st'.pollQ = [] ∧ st'.checkQ = st.checkQ ∧
    st'.cancelled = st.cancelled := by
  unfold pollPhase at h
  rw [hq] at h
  simp only [runSnapshot, Option.some.injEq] at h
  subst h
  exact ⟨rfl, rfl, rfl, rfl, rfl, rfl, rfl⟩

theorem checkPhase_nil {fuel : Nat} {st st' : SchedState} (hq : st.checkQ = [])
    (h : checkPhase fuel st = some st') :
    st'.log = st.log ∧ st'.prQ = st.prQ ∧ st'.mtQ = st.mtQ ∧
    st'.heap = st.heap ∧ st'.checkQ = [] ∧ st'.pollQ = st.pollQ ∧
    st'.cancelled = st.cancelled := by
  unfold checkPhase at h
  rw [hq] at h
  simp only [runSnapshot, Option.some.injEq] at h
  subst h
  exact ⟨rfl, rfl, rfl, rfl, rfl, rfl, rfl⟩

theorem runSnapshot_pure {fuel : Nat} :
    ∀ {ts : List Task} {st st' : SchedState}, runSnapshot fuel st ts = some st' →
    (∀ t ∈ ts, t.body = []) → st.prQ = [] → st.mtQ = [] → st.cancelled = [] →
    st'.log = st.log ++ ts.map (fun t => Entry.task t.id t.kind t.name) ∧
    st'.prQ = [] ∧ st'.mtQ = [] ∧ st'.cancelled = [] ∧ st'.heap = st.heap ∧
    st'.pollQ = st.pollQ ∧ st'.checkQ = st.checkQ
  | [], st, st', h => by
    simp only [runSnapshot, Option.some.injEq] at h
    subst h
    intro _ hpr hmt hc
    exact ⟨by simp, hpr, hmt, hc, rfl, rfl, rfl⟩
  | t0 :: rest, st, st', h => by
    intro hb hpr hmt hc
    unfold runSnapshot at h
    obtain ⟨stm, h1, h2⟩ := Option.bind_eq_some.mp h
    have hex : execTask st t0 = {st with
        started := t0.id :: st.started,
        log := st.log ++ [Entry.task t0.id t0.kind t0.name]} :=
      execTask_pure st t0 (hb t0 (List.mem_cons_self _ _)) (by simp [hc])
    rw [hex] at h1
    have hstm := drainPM_nil h1 hpr hmt
    subst hstm
    obtain ⟨g1, g2, g3, g4, g5, g6, g7⟩ := runSnapshot_pure h2
      (fun t ht => hb t (List.mem_cons_of_mem _ ht)) hpr hmt hc
    refine ⟨?_, g2, g3, g4, g5, g6, g7⟩
    rw [g1]
    simp

theorem loopDriver_timersOnly :
    ∀ {fuel : Nat} {st st' : SchedState}, loopDriver fuel st = some st' →
    st.prQ = [] → st.mtQ = [] → st.pollQ = [] → st.checkQ = [] →
    st.cancelled = [] → (∀ t ∈ st.heap, t.body = []) →
    st'.log = st.log ++ st.heap.map (fun t => Entry.task t.id t.kind t.name)
  | 0, _, _, h => by simp [loopDriver] at h
  | fuel + 1, st, st', h => by
    intro hpr hmt hpo hck hc hb
    cases hq : st.heap with
    | nil =>
      have hst' := loopDriver_empty h hpr hmt hq hpo hck
      subst hst'
      simp [hq]
    | cons t0 hrest =>
      unfold loopDriver at h
      rw [if_neg (by rw [hq]; simp)] at h
      obtain ⟨st1, h1, h'⟩ := Option.bind_eq_some.mp h
      obtain ⟨st2, h2, h''⟩ := Option.bind_eq_some.mp h'
      obtain ⟨st3, h3, h4⟩ := Option.bind_eq_some.mp h''
      simp only [timersPhase, hq] at h1
      obtain ⟨g1, g2, g3, g4, g5, g6, g7⟩ := runSnapshot_pure h1
        (fun t ht => hb t (hq ▸ mem_of_mem_takeWhile ht)) hpr hmt hc
      obtain ⟨p1, p2, p3, p4, p5, p6, p7⟩ :=
        pollPhase_nil (by rw [g6]; exact hpo) h2
      obtain ⟨k1, k2, k3, k4, k5, k6, k7⟩ :=
        checkPhase_nil (by rw [p6, g7]; exact hck) h3
      have g5' : st1.heap = List.dropWhile
          (fun u => decide (u.deadline ≤ max st.tick t0.deadline))
          (t0 :: hrest) := g5
      have hrec := loopDriver_timersOnly h4 (by rw [k2, p2, g2])
        (by rw [k3, p3, g3]) (by rw [k6, p5]) k5 (by rw [k7, p7, g4])
        (fun t ht => hb t (hq ▸ mem_of_mem_dropWhile
          (by rw [k4, p4, g5'] at ht; exact ht)))
      rw [hrec, k1, p1, k4, p4, g1, g5', List.append_assoc,
        ← List.map_append, List.takeWhile_append_dropWhile]

theorem sorted_get_lt {l : List Task} (hs : List.Sorted timerLe l)
    (i j : Nat) (hi : i < l.length) (hj : j < l.length)
    (hlt : (l.get ⟨i, hi⟩).deadline < (l.get ⟨j, hj⟩).deadline ∨
      ((l.get ⟨i, hi⟩).deadline = (l.get ⟨j, hj⟩).deadline ∧
       (l.get ⟨i, hi⟩).sequence < (l.get ⟨j, hj⟩).sequence)) :
    i < j := by
  by_contra hij
  push_neg at hij
  rcases Nat.eq_or_lt_of_le hij with heq | hlt2
  · rcases hlt with h | ⟨h1, h2⟩ <;> subst heq <;> omega
  · have hpw := List.pairwise_iff_get.mp hs ⟨j, hj⟩ ⟨i, hi⟩ hlt2
    unfold timerLe at hpw
    rcases hlt with h | ⟨h1, h2⟩ <;> rcases hpw with g | ⟨g1, g2⟩ <;> omega

theorem get_of_map {L : List Entry} {H : List Task} {f : Task → Entry}
    (hmap : L = H.map f) {i : Nat} (hi : i < L.length) (hHi : i < H.length) :
    L.get ⟨i, hi⟩ = f (H.get ⟨i, hHi⟩) := by
  subst hmap
  simp

/-- C4: for every completed run whose synchronous block schedules an
arbitrary list of timers (identifier, delay), execution order follows
`(deadline, sequence)` ascending: a timer with a strictly smaller delay
executes first regardless of scheduling order, and timers with equal delays
execute in scheduling (insertion) order.  Positions `a`, `b` index the
schedule list (and equal the Tasks' sequence numbers); `i`, `j` are the log
positions of the two timers' entries. -/
theorem c4_timer_order_deadline_sequence
    (fuel : Nat) (ds : List (String × Nat)) (st : SchedState)
    (a b : Nat) (na nb : String) (da db : Nat) (i j : Nat)
    (hrun : run fuel (mkTimers ds) = some st)
    (ha : ds.get? a = some (na, da)) (hb : ds.get? b = some (nb, db))
    (hord : da < db ∨ (da = db ∧ a < b))
    (hi : i < st.log.length) (hj : j < st.log.length)
    (hgi : st.log.get ⟨i, hi⟩ = Entry.task a .timer na)
    (hgj : st.log.get ⟨j, hj⟩ = Entry.task b .timer nb) :
    i < j := by
  unfold run at hrun
  obtain ⟨stb, hpm, hld⟩ := Option.bind_eq_some.mp hrun
  obtain ⟨f1, f2, f3, f4, f5, f6, f7, f8, f9⟩ :=
    runSync_mkTimers ds {initState with phase := .runningSync}
  have hstb := drainPM_nil hpm (by rw [f4]; rfl) (by rw [f5]; rfl)
  subst hstb
  have hbody : ∀ t ∈ (runSync {initState with phase := .runningSync}
      (mkTimers ds)).heap, t.body = [] := by
    intro t ht
    rw [f1] at ht
    rcases mem_timerFold _ ds _ _ t ht with hin | ⟨k, hk, heq⟩
    · simp [initState] at hin
    · rw [heq]
      rfl
  have hlog : st.log = (runSync {initState with phase := .runningSync}
      (mkTimers ds)).heap.map (fun t => Entry.task t.id t.kind t.name) := by
    have hrec := loopDriver_timersOnly hld (by rw [f4]; rfl) (by rw [f5]; rfl)
      (by rw [f6]; rfl) (by rw [f7]; rfl) (by rw [f8]; rfl) hbody
    rw [hrec, f3]
    rfl
  have hlen : st.log.length = (runSync {initState with phase := .runningSync}
      (mkTimers ds)).heap.length := by
    rw [hlog]
    simp
  have hsort : List.Sorted timerLe (runSync {initState with phase := .runningSync}
      (mkTimers ds)).heap := by
    rw [f1]
    exact sorted_timerFold _ ds _ _ (by simp [initState])
  have hHi : i < (runSync {initState with phase := .runningSync}
      (mkTimers ds)).heap.length := hlen ▸ hi
  have hHj : j < (runSync {initState with phase := .runningSync}
      (mkTimers ds)).heap.length := hlen ▸ hj
  rw [get_of_map hlog hi hHi] at hgi
  rw [get_of_map hlog hj hHj] at hgj
  obtain ⟨hida, -, -⟩ := Entry.task.injEq .. |>.mp hgi
  obtain ⟨hidb, -, -⟩ := Entry.task.injEq .. |>.mp hgj
  have field_facts : ∀ (x : Nat) (hx : x < (runSync {initState with
        phase := .runningSync} (mkTimers ds)).heap.length)
      (c : Nat) (nc : String) (dc : Nat), ds.get? c = some (nc, dc) →
      ((runSync {initState with phase := .runningSync}
        (mkTimers ds)).heap.get ⟨x, hx⟩).id = c →
      ((runSync {initState with phase := .runningSync}
        (mkTimers ds)).heap.get ⟨x, hx⟩).deadline = dc ∧
      ((runSync {initState with phase := .runningSync}
        (mkTimers ds)).heap.get ⟨x, hx⟩).sequence = c := by
    intro x hx c nc dc hc hid
    have hm : (runSync {initState with phase := .runningSync}
        (mkTimers ds)).heap.get ⟨x, hx⟩ ∈ (runSync {initState with
        phase := .runningSync} (mkTimers ds)).heap := List.get_mem _ x hx
    generalize hE : (runSync {initState with phase := .runningSync}
      (mkTimers ds)).heap.get ⟨x, hx⟩ = e at hm hid ⊢
    rw [f1] at hm
    rcases mem_timerFold _ ds _ _ _ hm with hin | ⟨k, hk, heq⟩
    · simp [initState] at hin
    · have hkc : k = c := by
        rw [heq] at hid
        simp only [timerTask] at hid
        have h0 : initState.nextSeq = 0 := rfl
        omega
      have h1 := List.get?_eq_get hk
      have h2 : ds.get? k = ds.get? c := by rw [hkc]
      rw [h2, hc] at h1
      have h3 : ds.get ⟨k, hk⟩ = (nc, dc) := (Option.some.injEq .. |>.mp h1).symm
      constructor
      · rw [heq]
        show 0 + (ds.get ⟨k, hk⟩).2 = dc
        rw [h3]
        simp
      · rw [heq]
        show 0 + k = c
        omega
  obtain ⟨hdla, hsqa⟩ := field_facts i hHi a na da ha hida
  obtain ⟨hdlb, hsqb⟩ := field_facts j hHj b nb db hb hidb
  refine sorted_get_lt hsort i j hHi hHj ?_
  rcases hord with h | ⟨h1, h2⟩
  · left; omega
  · right; constructor <;> omega

/-- C4 witness scenario: Timer `C` at delay 5 scheduled before Timer `D` at
delay 0. -/
def c4Ds : List (String × Nat) := [("C", 5), ("D", 0)]

/-- C4 witness: in the concrete run, Timer `D` (delay 0, scheduled second)
logs at position 0 before Timer `C` (delay 5, scheduled first) at position 1. -/
theorem c4_witness :
    run 32 (mkTimers c4Ds) = some ((run 32 (mkTimers c4Ds)).getD default) ∧
    (0 : Nat) < 1 :=
  ⟨rfl, c4_timer_order_deadline_sequence 32 c4Ds
    ((run 32 (mkTimers c4Ds)).getD default) 1 0 "D" "C" 0 5 0 1 rfl
    (by decide) (by decide) (Or.inl (by decide)) (by decide) (by decide)
    (by decide) (by decide)⟩

end EvLoop

namespace HealthApp

/-- Minimal JSON value shape used by the `/health` route of
`src/backend/project1/src/app.ts`. -/
inductive Json where
  | bool (b : Bool)
  | str (s : String)
  | obj (fields : List (String × Json))

/-- An incoming HTTP request; the handler receives it but ignores every
field (`_req` in `app.ts`). -/
structure Request where
  method : String
  path : String
  body : String
deriving Repr

/-- An HTTP response produced by `res.json(...)`: Express serializes the
value as JSON with status 200. -/
structure Response where
  status : Nat
  json : Json

/-- The `/health` handler of `app.ts`:
`(_req, res) => res.json({ ok: true, message: "Server is healthy" })`. -/
def healthHandler (_req : Request) : Response :=
  ⟨200, .obj [("ok", .bool true), ("message", .str "Server is healthy")]⟩

/-- The route table of the exported Express app configured in `app.ts`:
the single registered route `app.get("/health", ...)`. -/
def routes : List (String × String × (Request → Response)) :=
  [("GET", "/health", healthHandler)]

/-- Dispatch a request against the app's registered routes. -/
def handle (req : Request) : Option Response :=
  (routes.find? fun r => r.1 == req.method && r.2.1 == req.path).map
    fun r => r.2.2 req

/-- C10: every HTTP GET request to `/health`, regardless of its content,
yields the JSON body `{ok: true, message: "Server is healthy"}`; the handler
is a total function (it never raises) and the response is the same constant
for all such requests. -/
theorem c10_health_endpoint (req : Request) (hm : req.method = "GET")
    (hp : req.path = "/health") :
    handle req =
      some ⟨200, .obj [("ok", .bool true), ("message", .str "Server is healthy")]⟩ := by
  obtain ⟨m, p, b⟩ := req
  have hm' : m = "GET" := hm
  have hp' : p = "/health" := hp
  subst hm' hp'
  rfl

/-- C10 witness: a concrete GET request with an arbitrary body. -/
theorem c10_witness :
    handle ⟨"GET", "/health", "ignored-content"⟩ =
      some ⟨200, .obj [("ok", .bool true), ("message", .str "Server is healthy")]⟩ :=
  c10_health_endpoint ⟨"GET", "/health", "ignored-content"⟩ rfl rfl

end HealthApp
